import Mathlib

/-!
Verification development for the pySUT supply-and-use table library
(src/pysut/pySUT.py).  Dense numpy matrices are embedded as rational-valued
functions on Fin ranges; numpy operations are translated operation by
operation, and fallible numpy calls (raised exceptions) are modelled with
Option, none standing for a raise.
-/

namespace PySUT

/-- Dense real-valued matrix (numpy 2-D array) with rational entries. -/
abbrev Mat (m n : ℕ) : Type := Matrix (Fin m) (Fin n) ℚ

/-- Sum of all entries of a matrix: np.sum(A). -/
def matSum {m n : ℕ} (A : Mat m n) : ℚ := ∑ i, ∑ j, A i j

/-- Total industry output: g = V.sum(axis=0) (method SUT.g_V, column sums). -/
def g_V {m n : ℕ} (V : Mat m n) : Fin n → ℚ := fun j => ∑ i, V i j

/-- Total product output: q = V.sum(axis=1) (method SUT.q_V, row sums). -/
def q_V {m n : ℕ} (V : Mat m n) : Fin m → ℚ := fun i => ∑ j, V i j

/-- The ndim == 1 branch of function ddiag: np.diag of a vector, i.e. the
square matrix with the vector on the diagonal and zeros elsewhere. -/
def ddiag1 {n : ℕ} (v : Fin n → ℚ) : Mat n n := Matrix.diagonal v

/-- The ndim == 2 branch of function ddiag.  When one dimension has size 1
the input is squeezed and diagonalized (np.diag(np.squeeze(a))): for a
1-by-n or m-by-1 input whose other dimension exceeds 1 the squeeze yields
the 1-D vector of the entries, but for a 1-by-1 input the squeeze yields a
0-d array, which np.diag rejects with ValueError (none).  Otherwise
np.diag(np.diag(a)) keeps the main diagonal (of length min m n, also for a
rectangular input) and zeroes everything else.  The only other raise in the
source is for ndim > 2, which a 2-D input never reaches. -/
def ddiag2 {m n : ℕ} (a : Mat m n) : Option ((k : ℕ) × Mat k k) :=
  if h : min m n = 1 then
    if hsq : m = 1 ∧ n = 1 then none
    else
      some ⟨max m n, Matrix.diagonal (fun i =>
        if hm : m = 1 then a ⟨0, by omega⟩ ⟨i.val, by have hi := i.isLt; omega⟩
        else a ⟨i.val, by have hi := i.isLt; omega⟩ ⟨0, by omega⟩)⟩
  else
    some ⟨min m n, Matrix.diagonal (fun i =>
      a ⟨i.val, by have hi := i.isLt; omega⟩ ⟨i.val, by have hi := i.isLt; omega⟩)⟩

/-- Size of the square matrix returned by ddiag2 (0 if it raised). -/
def ddiag2Size {m n : ℕ} (a : Mat m n) : ℕ :=
  ((ddiag2 a).map (fun p => p.1)).getD 0

/-- Entry (i, j) of the matrix returned by ddiag2 (0 outside its bounds, or
if it raised). -/
def ddiag2Entry {m n : ℕ} (a : Mat m n) (i j : ℕ) : ℚ :=
  ((ddiag2 a).map (fun p =>
    if hi : i < p.1 then (if hj : j < p.1 then p.2 ⟨i, hi⟩ ⟨j, hj⟩ else 0) else 0)).getD 0

lemma ddiag2_min_one {m n : ℕ} (a : Mat m n) (h : min m n = 1)
    (hsq : ¬ (m = 1 ∧ n = 1)) :
    ddiag2 a = some ⟨max m n, Matrix.diagonal (fun i =>
      if hm : m = 1 then a ⟨0, by omega⟩ ⟨i.val, by have hi := i.isLt; omega⟩
      else a ⟨i.val, by have hi := i.isLt; omega⟩ ⟨0, by omega⟩)⟩ := by
  unfold ddiag2
  rw [dif_pos h, dif_neg hsq]

lemma ddiag2_one_one {m n : ℕ} (a : Mat m n) (hm : m = 1) (hn : n = 1) :
    ddiag2 a = none := by
  unfold ddiag2
  rw [dif_pos (by omega), dif_pos ⟨hm, hn⟩]

lemma ddiag2_min_ne_one {m n : ℕ} (a : Mat m n) (h : ¬ min m n = 1) :
    ddiag2 a = some ⟨min m n, Matrix.diagonal (fun i =>
      a ⟨i.val, by have hi := i.isLt; omega⟩ ⟨i.val, by have hi := i.isLt; omega⟩)⟩ := by
  unfold ddiag2
  rw [dif_neg h]

/-- Function diaginv: element-wise 1/x with the numpy Inf produced by 1/0
replaced by 0, then diagonalized with ddiag. -/
def diaginv {n : ℕ} (x : Fin n → ℚ) : Mat n n :=
  ddiag1 (fun i => if x i = 0 then 0 else 1 / x i)

/-- C7: for every vector x, diaginv returns a square diagonal matrix whose
i-th diagonal entry is 1/x i when x i is nonzero and 0 (not infinity) when
x i is zero, and whose off-diagonal entries are all zero. -/
theorem diaginv_spec {n : ℕ} (x : Fin n → ℚ) (i j : Fin n) :
    diaginv x i j = if i = j then (if x i = 0 then 0 else 1 / x i) else 0 := by
  by_cases h : i = j
  · subst h
    simp [diaginv, ddiag1, Matrix.diagonal_apply_eq]
  · simp [diaginv, ddiag1, Matrix.diagonal_apply_ne _ h, h]

/-- C8 counterexample: the claim says a true rectangular 2-D input (both
dimensions > 1 and unequal) makes ddiag fail with a ShapeError, and that a
2-D input with one dimension of size 1 or a square 2-D input returns a
square diagonal matrix.  On the concrete 2-by-3 input [[1,2,3],[4,5,6]]
the code instead succeeds, returning the 2-by-2 diagonal matrix built from
the main diagonal (1, 5); and on the 1-by-1 input [[5]] (which is both
degenerate and square) it raises, because np.squeeze yields a 0-d array
that np.diag rejects. -/
theorem ddiag_rect_returns_value :
    (ddiag2 (!![1, 2, 3; 4, 5, 6] : Mat 2 3)).isSome = true ∧
    ddiag2Size (!![1, 2, 3; 4, 5, 6] : Mat 2 3) = 2 ∧
    ddiag2Entry (!![1, 2, 3; 4, 5, 6] : Mat 2 3) 0 0 = 1 ∧
    ddiag2Entry (!![1, 2, 3; 4, 5, 6] : Mat 2 3) 1 1 = 5 ∧
    ddiag2Entry (!![1, 2, 3; 4, 5, 6] : Mat 2 3) 0 1 = 0 ∧
    ddiag2Entry (!![1, 2, 3; 4, 5, 6] : Mat 2 3) 1 0 = 0 ∧
    ddiag2 (!![5] : Mat 1 1) = none := by
  refine ⟨by decide, by decide, by decide, by decide, by decide, by decide, by decide⟩

/-- C8 (amended): a 2-D input makes ddiag fail only in the 1-by-1 case
(where np.squeeze yields a 0-d array that np.diag rejects; the ValueError
for more than 2 dimensions is unreachable from a 2-D input); every matrix
it returns is square with zeros off the diagonal; a square input with
dimension above 1 keeps its diagonal; a true rectangular input with both
dimensions above 1 yields, without failing, the min(m,n)-square matrix of
the main diagonal; a 2-D input with exactly one dimension of size 1 puts
its entries on the diagonal; and a 1-D vector is diagonalized. -/
theorem ddiag_spec :
    (∀ m n : ℕ, ∀ a : Mat m n, ¬ (m = 1 ∧ n = 1) → (ddiag2 a).isSome = true) ∧
    (∀ a : Mat 1 1, ddiag2 a = none) ∧
    (∀ m n : ℕ, ∀ a : Mat m n, ∀ i j : ℕ, i ≠ j → ddiag2Entry a i j = 0) ∧
    (∀ n : ℕ, ∀ a : Mat n n, 1 < n →
      ddiag2Size a = n ∧ ∀ i : ℕ, ∀ h : i < n, ddiag2Entry a i i = a ⟨i, h⟩ ⟨i, h⟩) ∧
    (∀ m n : ℕ, ∀ a : Mat m n, 1 < m → 1 < n →
      ddiag2Size a = min m n ∧
      ∀ i : ℕ, ∀ h1 : i < m, ∀ h2 : i < n, ddiag2Entry a i i = a ⟨i, h1⟩ ⟨i, h2⟩) ∧
    (∀ n : ℕ, ∀ a : Mat 1 n, 1 < n →
      ddiag2Size a = n ∧ ∀ j : ℕ, ∀ h : j < n, ddiag2Entry a j j = a 0 ⟨j, h⟩) ∧
    (∀ m : ℕ, ∀ a : Mat m 1, 1 < m →
      ddiag2Size a = m ∧ ∀ i : ℕ, ∀ h : i < m, ddiag2Entry a i i = a ⟨i, h⟩ 0) ∧
    (∀ n : ℕ, ∀ v : Fin n → ℚ, ∀ i j : Fin n,
      ddiag1 v i j = if i = j then v i else 0) := by
  refine ⟨?_, ?_, ?_, ?_, ?_, ?_, ?_, ?_⟩
  · intro m n a hsq
    by_cases h : min m n = 1
    · rw [ddiag2_min_one a h hsq]
      rfl
    · rw [ddiag2_min_ne_one a h]
      rfl
  · intro a
    exact ddiag2_one_one a rfl rfl
  · intro m n a i j hij
    by_cases h : min m n = 1
    · by_cases hsq : m = 1 ∧ n = 1
      · simp [ddiag2Entry, ddiag2_one_one a hsq.1 hsq.2]
      · simp only [ddiag2Entry, ddiag2_min_one a h hsq, Option.map_some',
          Option.getD_some]
        by_cases hi : i < max m n
        · rw [dif_pos hi]
          by_cases hj : j < max m n
          · rw [dif_pos hj]
            exact Matrix.diagonal_apply_ne _ (Fin.ne_of_val_ne hij)
          · rw [dif_neg hj]
        · rw [dif_neg hi]
    · simp only [ddiag2Entry, ddiag2_min_ne_one a h, Option.map_some', Option.getD_some]
      by_cases hi : i < min m n
      · rw [dif_pos hi]
        by_cases hj : j < min m n
        · rw [dif_pos hj]
          exact Matrix.diagonal_apply_ne _ (Fin.ne_of_val_ne hij)
        · rw [dif_neg hj]
      · rw [dif_neg hi]
  · intro n a hn
    have hne : ¬ min n n = 1 := by omega
    constructor
    · simp only [ddiag2Size, ddiag2_min_ne_one a hne, Option.map_some', Option.getD_some]
      omega
    · intro i h
      have hi : i < min n n := by omega
      simp only [ddiag2Entry, ddiag2_min_ne_one a hne, Option.map_some', Option.getD_some]
      rw [dif_pos hi, dif_pos hi, Matrix.diagonal_apply_eq]
  · intro m n a hm hn
    have hne : ¬ min m n = 1 := by omega
    constructor
    · simp only [ddiag2Size, ddiag2_min_ne_one a hne, Option.map_some', Option.getD_some]
    · intro i h1 h2
      have hi : i < min m n := by omega
      simp only [ddiag2Entry, ddiag2_min_ne_one a hne, Option.map_some', Option.getD_some]
      rw [dif_pos hi, dif_pos hi, Matrix.diagonal_apply_eq]
  · intro n a hn
    have hone : min 1 n = 1 := by omega
    have hsq : ¬ ((1 : ℕ) = 1 ∧ n = 1) := by omega
    constructor
    · simp only [ddiag2Size, ddiag2_min_one a hone hsq, Option.map_some',
        Option.getD_some]
      omega
    · intro j h
      have hj : j < max 1 n := by omega
      simp only [ddiag2Entry, ddiag2_min_one a hone hsq, Option.map_some',
        Option.getD_some]
      rw [dif_pos hj, dif_pos hj, Matrix.diagonal_apply_eq]
      rfl
  · intro m a hm
    have hone : min m 1 = 1 := by omega
    have hsq : ¬ (m = 1 ∧ (1 : ℕ) = 1) := by omega
    constructor
    · simp only [ddiag2Size, ddiag2_min_one a hone hsq, Option.map_some',
        Option.getD_some]
      omega
    · intro i h
      have hi : i < max m 1 := by omega
      simp only [ddiag2Entry, ddiag2_min_one a hone hsq, Option.map_some',
        Option.getD_some]
      rw [dif_pos hi, dif_pos hi, Matrix.diagonal_apply_eq]
      rw [dif_neg (show ¬ m = 1 by omega)]
      rfl
  · intro n v i j
    by_cases h : i = j
    · subst h
      simp [ddiag1, Matrix.diagonal_apply_eq]
    · simp [ddiag1, Matrix.diagonal_apply_ne _ h, h]

/-- C8 witness: the amended theorem applied to the concrete rectangular
input of the counterexample. -/
theorem ddiag_spec_witness :
    ddiag2Size (!![1, 2, 3; 4, 5, 6] : Mat 2 3) = min 2 3 :=
  (ddiag_spec.2.2.2.2.1 2 3 !![1, 2, 3; 4, 5, 6] (by norm_num) (by norm_num)).1

/-! Primary-production mapper: method SUT.build_E_bar. -/

/-- First index attaining the maximum of |v|, modelling one column of
np.argmax(np.abs(.), axis=0) (numpy argmax needs a nonempty axis, hence
m + 1 rows). -/
def argmaxAbs {m : ℕ} (v : Fin (m + 1) → ℚ) : Fin (m + 1) :=
  (List.finRange (m + 1)).foldl (fun best i => if |v i| > |v best| then i else best) 0

lemma argmaxAbs_foldl_init_le {m : ℕ} (v : Fin (m + 1) → ℚ) (l : List (Fin (m + 1)))
    (b : Fin (m + 1)) :
    |v b| ≤ |v (l.foldl (fun best i => if |v i| > |v best| then i else best) b)| := by
  induction l generalizing b with
  | nil => exact le_refl _
  | cons a t ih =>
    simp only [List.foldl_cons]
    refine le_trans ?_ (ih _)
    by_cases hc : |v a| > |v b|
    · rw [if_pos hc]
      exact le_of_lt hc
    · rw [if_neg hc]

lemma argmaxAbs_foldl_mem_le {m : ℕ} (v : Fin (m + 1) → ℚ) (l : List (Fin (m + 1)))
    (b : Fin (m + 1)) (x : Fin (m + 1)) (hx : x ∈ l) :
    |v x| ≤ |v (l.foldl (fun best i => if |v i| > |v best| then i else best) b)| := by
  induction l generalizing b with
  | nil => cases hx
  | cons a t ih =>
    simp only [List.foldl_cons]
    rcases List.mem_cons.mp hx with h1 | h2
    · subst h1
      refine le_trans ?_ (argmaxAbs_foldl_init_le v t _)
      by_cases hc : |v x| > |v b|
      · rw [if_pos hc]
      · rw [if_neg hc]
        exact le_of_not_lt hc
    · exact ih _ h2

lemma abs_le_argmaxAbs {m : ℕ} (v : Fin (m + 1) → ℚ) (i : Fin (m + 1)) :
    |v i| ≤ |v (argmaxAbs v)| :=
  argmaxAbs_foldl_mem_le v _ 0 i (List.mem_finRange i)

lemma argmaxAbs_ne_zero {m : ℕ} (v : Fin (m + 1) → ℚ) (i : Fin (m + 1)) (hi : v i ≠ 0) :
    v (argmaxAbs v) ≠ 0 := by
  intro h0
  have hle := abs_le_argmaxAbs v i
  rw [h0, abs_zero] at hle
  exact hi (abs_eq_zero.mp (le_antisymm hle (abs_nonneg _)))

/-- Products supplied by exactly one industry: row sums of the 0/1 matrix
V_binary equal to 1 (np.sum(V_binary, 1) == 1). -/
def exclusive_product {m n : ℕ} (V : Mat (m + 1) n) : Fin (m + 1) → Bool :=
  fun p => decide ((∑ j, (if V p j ≠ 0 then (1 : ℚ) else 0)) = 1)

/-- Industries already resolved by the diagonal seeding: for square V,
done = bool(np.diag(V)); for rectangular V all industries are unresolved. -/
def done0 {m n : ℕ} (V : Mat (m + 1) n) : Fin n → Bool :=
  fun j => if h : m + 1 = n then decide (V (Fin.cast h.symm j) j ≠ 0) else false

/-- Diagonal seeding of E_bar: for square V, diag(int(bool(diag V)));
for rectangular V, zeros. -/
def E_bar0 {m n : ℕ} (V : Mat (m + 1) n) : Mat (m + 1) n :=
  fun i j => if (m + 1 = n) ∧ (i : ℕ) = (j : ℕ) ∧ V i j ≠ 0 then 1 else 0

/-- V masked by outer(exclusive_product, not done). -/
def V_exclusive {m n : ℕ} (V : Mat (m + 1) n) : Mat (m + 1) n :=
  fun i j => if exclusive_product V i = true ∧ done0 V j = false then V i j else 0

/-- In each column of V_exclusive, only the entry at the argmax of the
absolute value survives (the fancy-indexed assignment). -/
def V_exclusive_max {m n : ℕ} (V : Mat (m + 1) n) : Mat (m + 1) n :=
  fun i j => if i = argmaxAbs (fun r => V_exclusive V r j) then V_exclusive V i j else 0

/-- E_bar after the prefer_exclusive step (E_bar[bool(V_exclusive_max)] = 1);
without prefer_exclusive this is just the diagonal seeding. -/
def E_bar1 {m n : ℕ} (V : Mat (m + 1) n) (pe : Bool) : Mat (m + 1) n :=
  match pe with
  | true => fun i j => if V_exclusive_max V i j ≠ 0 then 1 else E_bar0 V i j
  | false => E_bar0 V

/-- Resolved industries after the prefer_exclusive step: columns of E_bar
with nonzero sum (np.sum(E_bar, 0) != 0). -/
def done1 {m n : ℕ} (V : Mat (m + 1) n) (pe : Bool) : Fin n → Bool :=
  match pe with
  | true => fun j => decide ((∑ i, E_bar1 V true i j) ≠ 0)
  | false => done0 V

/-- In each column of V, only the entry at the argmax of the absolute value
survives. -/
def V_max {m n : ℕ} (V : Mat (m + 1) n) : Mat (m + 1) n :=
  fun i j => if i = argmaxAbs (fun r => V r j) then V i j else 0

/-- Method SUT.build_E_bar: diagonal seeding, optional exclusive-product
step, and largest-supply-flow fallback on the still-unresolved columns
(E_bar[:, not done] = bool(V_max[:, not done])). -/
def build_E_bar {m n : ℕ} (V : Mat (m + 1) n) (prefer_exclusive : Bool) : Mat (m + 1) n :=
  fun i j =>
    if done1 V prefer_exclusive j = true then E_bar1 V prefer_exclusive i j
    else (if V_max V i j ≠ 0 then 1 else 0)

lemma E_bar1_true_apply {m n : ℕ} (V : Mat (m + 1) n) (i : Fin (m + 1)) (j : Fin n) :
    E_bar1 V true i j = if V_exclusive_max V i j ≠ 0 then 1 else E_bar0 V i j := rfl

lemma done1_false_eq {m n : ℕ} (V : Mat (m + 1) n) : done1 V false = done0 V := rfl

lemma E_bar0_zero_of_not_done {m n : ℕ} (V : Mat (m + 1) n) (j : Fin n)
    (hd : done0 V j = false) (i : Fin (m + 1)) : E_bar0 V i j = 0 := by
  unfold E_bar0
  rw [if_neg]
  rintro ⟨hsq, hij, hV⟩
  unfold done0 at hd
  rw [dif_pos hsq] at hd
  have hVc : V (Fin.cast hsq.symm j) j = 0 := not_not.mp (of_decide_eq_false hd)
  have hieq : i = Fin.cast hsq.symm j := Fin.ext (by simpa using hij)
  rw [hieq] at hV
  exact hV hVc

lemma E_bar0_unique_of_done {m n : ℕ} (V : Mat (m + 1) n) (j : Fin n)
    (hd : done0 V j = true) :
    ∃ i, E_bar0 V i j = 1 ∧ ∀ i2, E_bar0 V i2 j ≠ 0 → i2 = i := by
  unfold done0 at hd
  by_cases hsq : m + 1 = n
  · rw [dif_pos hsq] at hd
    have hV : V (Fin.cast hsq.symm j) j ≠ 0 := of_decide_eq_true hd
    refine ⟨Fin.cast hsq.symm j, ?_, ?_⟩
    · unfold E_bar0
      rw [if_pos ⟨hsq, by simp, hV⟩]
    · intro i2 hi2
      unfold E_bar0 at hi2
      by_cases hc : (m + 1 = n) ∧ (i2 : ℕ) = (j : ℕ) ∧ V i2 j ≠ 0
      · exact Fin.ext (by simpa using hc.2.1)
      · rw [if_neg hc] at hi2
        exact absurd rfl hi2
  · rw [dif_neg hsq] at hd
    cases hd

lemma V_max_index_of_ne_zero {m n : ℕ} (V : Mat (m + 1) n) (i : Fin (m + 1)) (j : Fin n)
    (h : V_max V i j ≠ 0) : i = argmaxAbs (fun r => V r j) := by
  unfold V_max at h
  by_contra hne
  rw [if_neg hne] at h
  exact h rfl

lemma V_exclusive_max_index_of_ne_zero {m n : ℕ} (V : Mat (m + 1) n) (i : Fin (m + 1))
    (j : Fin n) (h : V_exclusive_max V i j ≠ 0) :
    i = argmaxAbs (fun r => V_exclusive V r j) := by
  unfold V_exclusive_max at h
  by_contra hne
  rw [if_neg hne] at h
  exact h rfl

/-- C2: for every supply matrix V (square or rectangular) and both values of
prefer_exclusive, each column of build_E_bar has exactly one nonzero entry,
equal to 1, except that a column of V that is entirely zero yields an
entirely zero E_bar column. -/
theorem build_E_bar_one_per_column {m n : ℕ} (V : Mat (m + 1) n) (pe : Bool) (j : Fin n) :
    ((∀ i, V i j = 0) → ∀ i, build_E_bar V pe i j = 0) ∧
    ((∃ i, V i j ≠ 0) →
      ∃ i, build_E_bar V pe i j = 1 ∧ ∀ i2, build_E_bar V pe i2 j ≠ 0 → i2 = i) := by
  constructor
  · intro hz i
    have hVex : ∀ i2, V_exclusive V i2 j = 0 := by
      intro i2
      unfold V_exclusive
      split
      · exact hz i2
      · rfl
    have hVexm : ∀ i2, V_exclusive_max V i2 j = 0 := by
      intro i2
      unfold V_exclusive_max
      split
      · exact hVex i2
      · rfl
    have hd0 : done0 V j = false := by
      unfold done0
      split
      · simp [hz]
      · rfl
    have hE1 : ∀ i2, E_bar1 V pe i2 j = 0 := by
      intro i2
      cases pe with
      | false => exact E_bar0_zero_of_not_done V j hd0 i2
      | true =>
        rw [E_bar1_true_apply]
        rw [if_neg (by simp [hVexm i2])]
        exact E_bar0_zero_of_not_done V j hd0 i2
    have hd1 : done1 V pe j = false := by
      cases pe with
      | false => exact hd0
      | true =>
        have hsum : (∑ i2, E_bar1 V true i2 j) = 0 :=
          Finset.sum_eq_zero (fun i2 _ => hE1 i2)
        unfold done1
        simp [hsum]
    have hVmax : V_max V i j = 0 := by
      unfold V_max
      split
      · exact hz i
      · rfl
    unfold build_E_bar
    rw [hd1]
    simp [hVmax]
  · intro hnz
    by_cases hd1 : done1 V pe j = true
    · have hbuild : ∀ i2, build_E_bar V pe i2 j = E_bar1 V pe i2 j := by
        intro i2
        unfold build_E_bar
        rw [if_pos hd1]
      cases pe with
      | false =>
        obtain ⟨i0, h1, hu⟩ := E_bar0_unique_of_done V j hd1
        refine ⟨i0, ?_, ?_⟩
        · rw [hbuild]
          exact h1
        · intro i2 h2
          rw [hbuild] at h2
          exact hu i2 h2
      | true =>
        by_cases hd0 : done0 V j = true
        · have hVex : ∀ i2, V_exclusive V i2 j = 0 := by
            intro i2
            unfold V_exclusive
            rw [if_neg]
            rintro ⟨-, hdf⟩
            rw [hd0] at hdf
            cases hdf
          have hVexm : ∀ i2, V_exclusive_max V i2 j = 0 := by
            intro i2
            unfold V_exclusive_max
            split
            · exact hVex i2
            · rfl
          have hE1eq : ∀ i2, E_bar1 V true i2 j = E_bar0 V i2 j := by
            intro i2
            rw [E_bar1_true_apply, if_neg (by simp [hVexm i2])]
          obtain ⟨i0, h1, hu⟩ := E_bar0_unique_of_done V j hd0
          refine ⟨i0, ?_, ?_⟩
          · rw [hbuild, hE1eq]
            exact h1
          · intro i2 h2
            rw [hbuild, hE1eq] at h2
            exact hu i2 h2
        · have hd0f : done0 V j = false := by
            revert hd0
            cases done0 V j <;> simp
          have hE0 : ∀ i2, E_bar0 V i2 j = 0 := E_bar0_zero_of_not_done V j hd0f
          have hsum : (∑ i2, E_bar1 V true i2 j) ≠ 0 := of_decide_eq_true hd1
          have hex : ∃ i2, E_bar1 V true i2 j ≠ 0 := by
            by_contra hall
            push_neg at hall
            exact hsum (Finset.sum_eq_zero (fun i2 _ => hall i2))
          obtain ⟨i2, hne⟩ := hex
          have hvm : V_exclusive_max V i2 j ≠ 0 := by
            intro hv0
            apply hne
            rw [E_bar1_true_apply, if_neg (by simp [hv0])]
            exact hE0 i2
          have hi2eq : i2 = argmaxAbs (fun r => V_exclusive V r j) :=
            V_exclusive_max_index_of_ne_zero V i2 j hvm
          refine ⟨i2, ?_, ?_⟩
          · rw [hbuild, E_bar1_true_apply, if_pos hvm]
          · intro i3 h3
            rw [hbuild] at h3
            by_cases hv3 : V_exclusive_max V i3 j ≠ 0
            · rw [V_exclusive_max_index_of_ne_zero V i3 j hv3, ← hi2eq]
            · exfalso
              apply h3
              rw [E_bar1_true_apply, if_neg hv3]
              exact hE0 i3
    · have hne1 : done1 V pe j = false := by
        revert hd1
        cases done1 V pe j <;> simp
      have hbuild : ∀ i2, build_E_bar V pe i2 j = (if V_max V i2 j ≠ 0 then 1 else 0) := by
        intro i2
        unfold build_E_bar
        rw [hne1]
        simp
      obtain ⟨iw, hw⟩ := hnz
      have hV0 : V (argmaxAbs (fun r => V r j)) j ≠ 0 :=
        argmaxAbs_ne_zero (fun r => V r j) iw hw
      have hvm0 : V_max V (argmaxAbs (fun r => V r j)) j ≠ 0 := by
        unfold V_max
        rw [if_pos rfl]
        exact hV0
      refine ⟨argmaxAbs (fun r => V r j), ?_, ?_⟩
      · rw [hbuild, if_pos hvm0]
      · intro i2 h2
        rw [hbuild] at h2
        by_cases hvm2 : V_max V i2 j ≠ 0
        · exact V_max_index_of_ne_zero V i2 j hvm2
        · rw [if_neg hvm2] at h2
          exact absurd rfl h2

/-- C2 witness: the unique-nonzero part of the theorem applied to a concrete
supply matrix and column. -/
theorem build_E_bar_one_per_column_witness :
    ∃ i, build_E_bar (!![3, 0; 1, 2] : Mat 2 2) true i 0 = 1 ∧
      ∀ i2, build_E_bar (!![3, 0; 1, 2] : Mat 2 2) true i2 0 ≠ 0 → i2 = i :=
  (build_E_bar_one_per_column (!![3, 0; 1, 2] : Mat 2 2) true 0).2 ⟨0, by decide⟩

/-! Normalization engine: function matrix_norm, in the non-traceable case
where Z is products-by-products (np.size(Z, 0) == com, the first branch the
source tests, which is the one every construct below reaches).  Filtering,
inversion of the kept diagonal and restore_size are represented together:
with keep_size=True the source reinflates the filtered result with zeros at
dropped positions, giving entry (r, c) equal to Z r c / q c at kept
positions and 0 elsewhere; with keep_size=False the source returns exactly
the submatrix of that same matrix at filter-true positions together with
the two filters, so the pair (full-size matrix, filters) carries the same
entries for both values of keep_size. -/

/-- Total intermediate use u = np.sum(Z, 1). -/
def mn_u {com : ℕ} (Z : Mat com com) : Fin com → ℚ := fun p => ∑ c, Z p c

/-- Row filter nn_in = (abs(q) + abs(u)) != 0. -/
def mn_nn_in {com ind : ℕ} (Z : Mat com com) (V : Mat com ind) : Fin com → Bool :=
  fun p => decide (|q_V V p| + |mn_u Z p| ≠ 0)

/-- Column filter nn_out = q != 0. -/
def mn_nn_out {com ind : ℕ} (V : Mat com ind) : Fin com → Bool :=
  fun c => decide (q_V V c ≠ 0)

/-- Normalized coefficient matrix A = Z[nn_in][:, nn_out] multiplied by
inv(diag(q[nn_out])), reinflated to full size. -/
def matrix_norm_A {com ind : ℕ} (Z : Mat com com) (V : Mat com ind) : Mat com com :=
  fun r c =>
    if mn_nn_in Z V r = true ∧ mn_nn_out V c = true then Z r c / q_V V c else 0

/-- Normalized stressors S = F_con[:, nn_out] multiplied by
inv(diag(q[nn_out])), reinflated to full size. -/
def matrix_norm_S {ext com ind : ℕ} (F_con : Mat ext com) (V : Mat com ind) : Mat ext com :=
  fun r c => if mn_nn_out V c = true then F_con r c / q_V V c else 0

/-- Function matrix_norm returning (A, S, nn_in, nn_out); S is none when
F_con is absent (np.empty(0) in the source). -/
def matrix_norm {com ind ext : ℕ} (Z : Mat com com) (V : Mat com ind)
    (F_con : Option (Mat ext com)) (keep_size : Bool) :
    Mat com com × Option (Mat ext com) × (Fin com → Bool) × (Fin com → Bool) :=
  (matrix_norm_A Z V, F_con.map (fun f => matrix_norm_S f V), mn_nn_in Z V, mn_nn_out V)

/-- The just_filters mode of matrix_norm: only (nn_in, nn_out). -/
def matrix_norm_filters {com ind : ℕ} (Z : Mat com com) (V : Mat com ind) :
    (Fin com → Bool) × (Fin com → Bool) :=
  (mn_nn_in Z V, mn_nn_out V)

/-- C3: in matrix_norm with product-by-product Z, nn_in keeps exactly the
rows whose total output (row sum of V) or total use (row sum of Z) is
nonzero, and nn_out keeps exactly the columns whose total output is
nonzero. -/
theorem matrix_norm_filter_spec {com ind : ℕ} (Z : Mat com com) (V : Mat com ind)
    (p : Fin com) :
    (mn_nn_in Z V p = true ↔ (q_V V p ≠ 0 ∨ mn_u Z p ≠ 0)) ∧
    (mn_nn_out V p = true ↔ q_V V p ≠ 0) := by
  constructor
  · simp only [mn_nn_in, decide_eq_true_eq]
    constructor
    · intro h
      by_contra hc
      push_neg at hc
      exact h (by rw [hc.1, hc.2]; simp)
    · intro h hsum
      have ha := abs_nonneg (q_V V p)
      have hb := abs_nonneg (mn_u Z p)
      have h1 : |q_V V p| = 0 := by linarith
      have h2 : |mn_u Z p| = 0 := by linarith
      rcases h with h | h
      · exact h (abs_eq_zero.mp h1)
      · exact h (abs_eq_zero.mp h2)
  · simp [mn_nn_out]

/-- C3 witness: the filter characterization at a concrete matrix_norm
input. -/
theorem matrix_norm_filter_spec_witness :
    mn_nn_out (!![10, 2; 0, 8] : Mat 2 2) 0 = true :=
  (matrix_norm_filter_spec (!![0, 0; 0, 0] : Mat 2 2) !![10, 2; 0, 8] 0).2.mpr
    (by norm_num [q_V, Fin.sum_univ_two])

lemma transpose_id_two : (!![1, 0; 0, 1] : Mat 2 2).transpose = !![1, 0; 0, 1] := by
  ext i j
  fin_cases i <;> fin_cases j <;> simp [Matrix.transpose_apply]

/-! Supply splits V_bar (primary) and V_tild (secondary), methods SUT.V_bar
and SUT.V_tild. -/

/-- Method SUT.V_bar: V ⊙ E_bar, with the ddiag(V) fallback when E_bar is
absent and V is square; with E_bar absent and V rectangular the source
multiplies V by None and raises (none). -/
def V_bar_of {com ind : ℕ} (V : Mat com ind) (E_bar : Option (Mat com ind)) :
    Option (Mat com ind) :=
  match E_bar with
  | some E => some (fun i j => V i j * E i j)
  | none =>
    if com = ind then some (fun i j => if (i : ℕ) = (j : ℕ) then V i j else 0)
    else none

/-- Method SUT.V_tild: V ⊙ (1 - E_bar), with the V - ddiag(V) fallback when
E_bar is absent and V is square. -/
def V_tild_of {com ind : ℕ} (V : Mat com ind) (E_bar : Option (Mat com ind)) :
    Option (Mat com ind) :=
  match E_bar with
  | some E => some (fun i j => V i j * (1 - E i j))
  | none =>
    if com = ind then
      some (fun i j => V i j - (if (i : ℕ) = (j : ℕ) then V i j else 0))
    else none

/-- Construct output tuple (A, S, nn_in, nn_out, Z, F_con); S and F_con are
none when F is absent (np.empty(0) in the source). -/
abbrev ConstructOut (com ext : ℕ) : Type :=
  Mat com com × Option (Mat ext com) × (Fin com → Bool) × (Fin com → Bool) ×
    Mat com com × Option (Mat ext com)

/-- Method SUT.btc.  When E_bar is absent and V's product count equals F's
industry count, np.eye is used in E_bar's place (well typed here because
the guard forces com = ind); with E_bar and F both absent the attribute
access self.F.shape raises (none), and with E_bar absent and the counts
unequal the later E_bar.T on None raises (none). -/
def btc {com ind ext : ℕ} (V U : Mat com ind) (F : Option (Mat ext ind))
    (E_bar : Option (Mat com ind)) (keep_size : Bool) : Option (ConstructOut com ext) :=
  let Eb : Option (Mat com ind) :=
    match E_bar with
    | some E => some E
    | none =>
      match F with
      | none => none
      | some _ =>
        if com = ind then some (fun i j => if (i : ℕ) = (j : ℕ) then 1 else 0) else none
  Eb.bind (fun E =>
    (V_tild_of V E_bar).bind (fun Vt =>
      (V_bar_of V E_bar).map (fun Vb =>
        let Z := (U - Vt) * E.transpose
        let F_con := F.map (fun f => f * E.transpose)
        let mn := matrix_norm Z Vb F_con keep_size
        (mn.1, mn.2.1, mn.2.2.1, mn.2.2.2, Z, F_con))))

/-- Helper: the A component of btc with a stored E_bar (definitional). -/
lemma btc_some_A {com ind ext : ℕ} (V U : Mat com ind) (F : Option (Mat ext ind))
    (E : Mat com ind) (ks : Bool) :
    (btc V U F (some E) ks).map (fun o => o.1) =
      some (matrix_norm_A
        ((U - Matrix.of (fun i j => V i j * (1 - E i j))) * E.transpose)
        (Matrix.of (fun i j => V i j * E i j))) := rfl

/-- Helper: the Z component of btc with a stored E_bar (definitional). -/
lemma btc_some_Z {com ind ext : ℕ} (V U : Mat com ind) (F : Option (Mat ext ind))
    (E : Mat com ind) (ks : Bool) :
    (btc V U F (some E) ks).map (fun o => o.2.2.2.2.1) =
      some ((U - Matrix.of (fun i j => V i j * (1 - E i j))) * E.transpose) := rfl

lemma btc_scenario_V_tild :
    Matrix.of (fun i j => (!![10, 2; 0, 8] : Mat 2 2) i j * (1 - (!![1, 0; 0, 1] : Mat 2 2) i j)) =
      (!![0, 2; 0, 0] : Mat 2 2) := by
  ext i j
  fin_cases i <;> fin_cases j <;> norm_num

lemma btc_scenario_V_bar :
    Matrix.of (fun i j => (!![10, 2; 0, 8] : Mat 2 2) i j * (!![1, 0; 0, 1] : Mat 2 2) i j) =
      (!![10, 0; 0, 8] : Mat 2 2) := by
  ext i j
  fin_cases i <;> fin_cases j <;> norm_num

lemma btc_scenario_Z :
    ((!![1, 1; 2, 3] : Mat 2 2) - (!![0, 2; 0, 0] : Mat 2 2)) * (!![1, 0; 0, 1] : Mat 2 2) =
      !![1, -1; 2, 3] := by
  have hsub : (!![1, 1; 2, 3] : Mat 2 2) - !![0, 2; 0, 0] = !![1, -1; 2, 3] := by
    ext i j
    fin_cases i <;> fin_cases j <;> simp [Matrix.sub_apply] <;> norm_num
  rw [hsub]
  norm_num [Matrix.mul_fin_two]

/-- C1: on the concrete scenario V = [[10,2],[0,8]], U = [[1,1],[2,3]],
F = [[5,1]], build_E_bar yields the identity primary map E_bar, and the BTC
construct computes V_tilde = [[0,2],[0,0]], V_bar = [[10,0],[0,8]],
Z = (U - V_tilde)·E_barᵀ = [[1,-1],[2,3]] and normalized
A = [[1/10,-1/8],[1/5,3/8]]. -/
theorem btc_concrete_scenario :
    build_E_bar (!![10, 2; 0, 8] : Mat 2 2) true = !![1, 0; 0, 1] ∧
    V_tild_of (!![10, 2; 0, 8] : Mat 2 2) (some !![1, 0; 0, 1]) = some !![0, 2; 0, 0] ∧
    V_bar_of (!![10, 2; 0, 8] : Mat 2 2) (some !![1, 0; 0, 1]) = some !![10, 0; 0, 8] ∧
    ((btc (!![10, 2; 0, 8] : Mat 2 2) !![1, 1; 2, 3] (some !![5, 1])
        (some !![1, 0; 0, 1]) true).map (fun o => o.2.2.2.2.1)) = some !![1, -1; 2, 3] ∧
    ((btc (!![10, 2; 0, 8] : Mat 2 2) !![1, 1; 2, 3] (some !![5, 1])
        (some !![1, 0; 0, 1]) true).map (fun o => o.1)) =
      some !![1/10, -(1/8); 1/5, 3/8] := by
  have hdone0 : ∀ j : Fin 2, done0 (!![10, 2; 0, 8] : Mat 2 2) j = true := by
    decide
  have hVex : ∀ i j, V_exclusive (!![10, 2; 0, 8] : Mat 2 2) i j = 0 := by
    intro i j
    simp [V_exclusive, hdone0 j]
  have hVexm : ∀ i j, V_exclusive_max (!![10, 2; 0, 8] : Mat 2 2) i j = 0 := by
    intro i j
    simp [V_exclusive_max, hVex]
  have hE1 : ∀ i j, E_bar1 (!![10, 2; 0, 8] : Mat 2 2) true i j =
      E_bar0 (!![10, 2; 0, 8] : Mat 2 2) i j := by
    intro i j
    simp [E_bar1, hVexm]
  have hE0 : ∀ i j, E_bar0 (!![10, 2; 0, 8] : Mat 2 2) i j =
      (!![1, 0; 0, 1] : Mat 2 2) i j := by
    decide
  have hdone1 : ∀ j, done1 (!![10, 2; 0, 8] : Mat 2 2) true j = true := by
    intro j
    fin_cases j <;>
      simp [done1, hE1, hE0, Fin.sum_univ_two, decide_eq_true_eq] <;> norm_num
  refine ⟨?_, ?_, ?_, ?_, ?_⟩
  · ext i j
    simp [build_E_bar, hdone1, hE1, hE0]
  · exact Option.some_inj.mpr btc_scenario_V_tild
  · exact Option.some_inj.mpr btc_scenario_V_bar
  · rw [btc_some_Z]
    exact Option.some_inj.mpr
      (by rw [btc_scenario_V_tild, transpose_id_two]; exact btc_scenario_Z)
  · rw [btc_some_A]
    refine Option.some_inj.mpr ?_
    rw [btc_scenario_V_tild, transpose_id_two, btc_scenario_Z, btc_scenario_V_bar]
    ext i j
    fin_cases i <;> fin_cases j <;>
      simp [matrix_norm_A, mn_nn_in, mn_nn_out, q_V, mn_u, Fin.sum_univ_two,
        decide_eq_true_eq] <;> norm_num

/-- Computable model of np.linalg.inv on a square rational matrix: the
inverse det⁻¹ • adjugate when the determinant is nonzero, none (LinAlgError)
when the matrix is singular. -/
def np_linalg_inv {n : ℕ} (A : Mat n n) : Option (Mat n n) :=
  if A.det = 0 then none else some ((A.det)⁻¹ • A.adjugate)

/-- Method SUT.ctc: A = U·V⁻¹, Z = A·diag(q), S = F·V⁻¹, F_con = S·diag(q);
the filters come from matrix_norm's just_filters mode and are returned
without being applied to A or Z; keep_size is accepted and never used. -/
def ctc {n ext : ℕ} (V U : Mat n n) (F : Option (Mat ext n)) (keep_size : Bool) :
    Option (ConstructOut n ext) :=
  (np_linalg_inv V).map (fun inv_V =>
    let A := U * inv_V
    let Z := A * ddiag1 (q_V V)
    let S := F.map (fun (f : Mat ext n) => f * inv_V)
    let F_con := S.map (fun (s : Mat ext n) => s * ddiag1 (q_V V))
    let fl := matrix_norm_filters Z V
    (A, S, fl.1, fl.2, Z, F_con))

/-- C10: for every square V accepted by np.linalg.inv (invertible), any U
and F and either value of keep_size, the CTC construct never filters its
outputs: the returned A and Z are the full product-by-product matrices
U·V⁻¹ and U·V⁻¹·diag(q) with no rows or columns removed, nn_in and nn_out
are computed in just_filters mode and merely returned, and the whole result
is independent of keep_size. -/
theorem ctc_never_filters {n ext : ℕ} (V U : Mat n n) (F : Option (Mat ext n))
    (ks : Bool) (W : Mat n n) (hW : np_linalg_inv V = some W) :
    ctc V U F ks = ctc V U F true ∧
    ctc V U F ks = some (U * W, F.map (fun (f : Mat ext n) => f * W),
      mn_nn_in (U * W * ddiag1 (q_V V)) V, mn_nn_out V,
      U * W * ddiag1 (q_V V),
      (F.map (fun (f : Mat ext n) => f * W)).map
        (fun (g : Mat ext n) => g * ddiag1 (q_V V))) := by
  constructor
  · rfl
  · unfold ctc
    rw [hW]
    rfl

/-- C10 witness: keep_size irrelevance of ctc at a concrete invertible
supply table. -/
theorem ctc_never_filters_witness :
    ctc (!![10, 2; 0, 8] : Mat 2 2) !![1, 1; 2, 3] (some !![5, 1]) false =
      ctc (!![10, 2; 0, 8] : Mat 2 2) !![1, 1; 2, 3] (some !![5, 1]) true :=
  (ctc_never_filters (!![10, 2; 0, 8] : Mat 2 2) !![1, 1; 2, 3] (some !![5, 1]) false
    (((80 : ℚ))⁻¹ • (!![10, 2; 0, 8] : Mat 2 2).adjugate)
    (by
      have hdet : (!![10, 2; 0, 8] : Mat 2 2).det = 80 := by
        norm_num [Matrix.det_fin_two_of]
      unfold np_linalg_inv
      rw [hdet]
      norm_num)).1

/-! Alternate-technology fixed-point solver: method SUT.__alternate_tech
(with a 2-D Gamma; the property-layer branch for a 3-D Gamma is not taken
there) and its while loop. -/

/-- M = V_tild · diaginv(e_com · V_bar): how strongly secondary production
feeds back into the chosen alternate technology. -/
def M_of {com ind : ℕ} (V : Mat com ind) (E_bar : Option (Mat com ind)) :
    Option (Mat com ind) :=
  (V_tild_of V E_bar).bind (fun Vt =>
    (V_bar_of V E_bar).map (fun Vb =>
      Vt * diaginv (fun j => ∑ i, Vb i j)))

lemma M_of_some {com ind : ℕ} (V E : Mat com ind) :
    M_of V (some E) = some (Matrix.of (fun i j => V i j * (1 - E i j)) *
      diaginv (fun j => ∑ i, V i j * E i j)) := rfl

/-- The solver's while loop.  State: current power tier_n, running series
sum theSum, iteration count n, and residual res = np.sum(tier_n).  The loop
body runs while ((res > res_tol) or (res < 0)) and (n <= nmax), exactly as
in the source; the fuel argument only carries the structural recursion and
never runs out when a caller passes nmax + 1, because each iteration
increments n and the guard requires n <= nmax. -/
def altLoopF {nq nr : ℕ} (tier : Mat nq nq) (Gamma : Mat nq nr) (res_tol : ℚ)
    (nmax : ℕ) : ℕ → Mat nq nq → Mat nq nr → ℕ → ℚ → Mat nq nr × ℕ × ℚ
  | 0, _, theSum, n, res => (theSum, n, res)
  | fuel + 1, tier_n, theSum, n, res =>
    if (res > res_tol ∨ res < 0) ∧ n ≤ nmax then
      altLoopF tier Gamma res_tol nmax fuel (tier_n * tier)
        (theSum + (tier_n * tier) * Gamma) (n + 1) (matSum (tier_n * tier))
    else (theSum, n, res)

/-- Iteration 0 preparation (tier = -Gamma·M, tier_n = identity,
theSum = tier_n·Gamma, n = 1, res = np.sum(tier_n)) followed by the loop;
returns (theSum, n, res). -/
def alternate_tech_core {com ind : ℕ} (V : Mat com ind) (E_bar : Option (Mat com ind))
    (Gamma : Mat ind com) (nmax : ℕ) (res_tol : ℚ) :
    Option (Mat ind com × ℕ × ℚ) :=
  (M_of V E_bar).map (fun Mm =>
    let tier : Mat ind ind := -(Gamma * Mm)
    let tier_n : Mat ind ind := 1
    altLoopF tier Gamma res_tol nmax (nmax + 1) tier_n (tier_n * Gamma) 1
      (matSum tier_n))

/-- The inner function apply_to_requirements of __alternate_tech in the
non-traceable case: X_gamma = (B_so + N_so)·theSum, with B = X·invg,
N = X·diaginv(e_com·V_bar), so marking industries that are sole producers
(np.sum(V != 0, 0) == 1) and mo the others.  It is applied both to U
(rows = com) and to F (rows = ext), hence the polymorphic row count. -/
def alt_apply_req {rows com ind : ℕ} (V Vb : Mat com ind) (theSum : Mat ind com)
    (X : Mat rows ind) : Mat rows com :=
  (X * diaginv (g_V V) * ddiag1 (fun j =>
      if (Finset.univ.filter (fun i => V i j ≠ 0)).card = 1 then (1 : ℚ) else 0) +
    X * diaginv (fun j => ∑ i, Vb i j) * ddiag1 (fun j =>
      if (Finset.univ.filter (fun i => V i j ≠ 0)).card = 1 then (0 : ℚ) else 1)) *
    theSum

/-- Method SUT.__alternate_tech: the truncated series sum theSum from the
loop, then A_gamma = (B_so + N_so)·theSum, and the analogous S_gamma from F
(S_gamma is none, np.empty(0), when F is absent). -/
def alternate_tech {com ind ext : ℕ} (V U : Mat com ind) (F : Option (Mat ext ind))
    (E_bar : Option (Mat com ind)) (Gamma : Mat ind com) (nmax : ℕ) (res_tol : ℚ) :
    Option (Mat com com × Option (Mat ext com)) :=
  (alternate_tech_core V E_bar Gamma nmax res_tol).bind (fun lr =>
    (V_bar_of V E_bar).map (fun Vb =>
      (alt_apply_req V Vb lr.1 U, F.map (alt_apply_req V Vb lr.1))))

/-- Helper: the A_gamma component of the solver, given the loop result. -/
lemma alternate_tech_A_of_core {com ind ext : ℕ} (V U : Mat com ind)
    (F : Option (Mat ext ind)) (E : Mat com ind) (Gamma : Mat ind com) (nmax : ℕ)
    (res_tol : ℚ) (lr : Mat ind com × ℕ × ℚ)
    (hc : alternate_tech_core V (some E) Gamma nmax res_tol = some lr) :
    (alternate_tech V U F (some E) Gamma nmax res_tol).map (fun p => p.1) =
      some (alt_apply_req V (Matrix.of (fun i j => V i j * E i j)) lr.1 U) := by
  unfold alternate_tech
  rw [hc]
  rfl

lemma diaginv_qbar_scenario :
    diaginv (fun j => ∑ i,
      (!![10, 2; 0, 8] : Mat 2 2) i j * (!![1, 0; 0, 1] : Mat 2 2) i j) =
      !![1/10, 0; 0, 1/8] := by
  ext i j
  fin_cases i <;> fin_cases j <;>
    simp [diaginv, ddiag1, Matrix.diagonal, Fin.sum_univ_two] <;> norm_num

lemma M_scenario :
    M_of (!![10, 2; 0, 8] : Mat 2 2) (some !![1, 0; 0, 1]) = some !![0, 1/4; 0, 0] := by
  rw [M_of_some, btc_scenario_V_tild, diaginv_qbar_scenario]
  refine Option.some_inj.mpr ?_
  ext i j
  fin_cases i <;> fin_cases j <;>
    simp [Matrix.mul_apply, Fin.sum_univ_two] <;> norm_num

/-- C4 counterexample: with V = [[10,2],[0,8]], E_bar the identity,
Gamma = [[0,0],[1,0]], nmax = 5 and res_tol = 0, the residual after the
first loop iteration is matSum(-Gamma·M) = -1/4, which is at or below the
tolerance; a solver that stopped as soon as the residual falls to or below
res_tol would return n = 2, but the loop keeps running on the negative
residual and returns n = 6, stopping only when n exceeds nmax. -/
theorem alternate_tech_negative_residual_continues :
    M_of (!![10, 2; 0, 8] : Mat 2 2) (some !![1, 0; 0, 1]) = some !![0, 1/4; 0, 0] ∧
    matSum (-((!![0, 0; 1, 0] : Mat 2 2) * !![0, 1/4; 0, 0])) = -(1/4) ∧
    ((-(1/4) : ℚ) ≤ 0) ∧
    ((alternate_tech_core (!![10, 2; 0, 8] : Mat 2 2) (some !![1, 0; 0, 1])
        !![0, 0; 1, 0] 5 0).map (fun p => p.2.1)) = some 6 ∧
    (6 : ℕ) ≠ 2 := by
  have hGM : (!![0, 0; 1, 0] : Mat 2 2) * !![0, 1/4; 0, 0] = !![0, 0; 0, 1/4] := by
    ext i j
    fin_cases i <;> fin_cases j <;>
      simp [Matrix.mul_apply, Fin.sum_univ_two] <;> norm_num
  have hTier : -((!![0, 0; 1, 0] : Mat 2 2) * !![0, 1/4; 0, 0]) = !![0, 0; 0, -(1/4)] := by
    rw [hGM]
    ext i j
    fin_cases i <;> fin_cases j <;> simp [Matrix.neg_apply]
  refine ⟨M_scenario, ?_, by norm_num, ?_, by norm_num⟩
  · rw [hTier]
    norm_num [matSum, Fin.sum_univ_two]
  · rw [show (alternate_tech_core (!![10, 2; 0, 8] : Mat 2 2) (some !![1, 0; 0, 1])
        !![0, 0; 1, 0] 5 0) = (M_of (!![10, 2; 0, 8] : Mat 2 2)
          (some !![1, 0; 0, 1])).map (fun Mm =>
            altLoopF (-((!![0, 0; 1, 0] : Mat 2 2) * Mm)) !![0, 0; 1, 0] 0 5 6 1
              ((1 : Mat 2 2) * !![0, 0; 1, 0]) 1 (matSum (1 : Mat 2 2))) from rfl]
    rw [M_scenario]
    simp only [Option.map_some']
    rw [hTier, Matrix.one_mul]
    norm_num [altLoopF, matSum, Fin.sum_univ_two, Matrix.mul_fin_two, Matrix.one_fin_two]

lemma altLoopF_stop {nq nr : ℕ} (tier : Mat nq nq) (Gamma : Mat nq nr) (res_tol : ℚ)
    (nmax : ℕ) (fuel : ℕ) (tier_n : Mat nq nq) (theSum : Mat nq nr) (n : ℕ) (res : ℚ)
    (hfuel : nmax < fuel + n) :
    (0 ≤ (altLoopF tier Gamma res_tol nmax fuel tier_n theSum n res).2.2 ∧
      (altLoopF tier Gamma res_tol nmax fuel tier_n theSum n res).2.2 ≤ res_tol) ∨
    nmax < (altLoopF tier Gamma res_tol nmax fuel tier_n theSum n res).2.1 := by
  induction fuel generalizing tier_n theSum n res with
  | zero =>
    right
    simpa [altLoopF] using (by omega : nmax < n)
  | succ f ih =>
    rw [altLoopF]
    split
    · exact ih _ _ _ _ (by omega)
    · next hcond =>
        rw [not_and_or, not_or] at hcond
        rcases hcond with ⟨h1, h2⟩ | h3
        · left
          exact ⟨le_of_not_lt h2, le_of_not_lt h1⟩
        · right
          exact Nat.lt_of_not_le h3

/-- C4 (amended): the solver's loop stops exactly when the residual lies in
the interval [0, res_tol] or the iteration count has exceeded nmax,
whichever happens first; a negative residual, although at or below res_tol,
does not stop it; and non-convergence raises no error, the accumulated
partial sum being returned in the first component. -/
theorem alternate_tech_stop_condition {com ind : ℕ} (V : Mat com ind)
    (E_bar : Option (Mat com ind)) (Gamma : Mat ind com) (nmax : ℕ) (res_tol : ℚ)
    (r : Mat ind com × ℕ × ℚ)
    (hr : alternate_tech_core V E_bar Gamma nmax res_tol = some r) :
    (0 ≤ r.2.2 ∧ r.2.2 ≤ res_tol) ∨ nmax < r.2.1 := by
  unfold alternate_tech_core at hr
  cases hM : M_of V E_bar with
  | none =>
    rw [hM] at hr
    cases hr
  | some Mm =>
    rw [hM, Option.map_some'] at hr
    have hval := Option.some_inj.mp hr
    rw [← hval]
    exact altLoopF_stop _ _ _ _ _ _ _ _ _ (by omega)

/-- C4 witness: the stop condition at a concrete solver input (Gamma = 0,
nmax = 0: the loop exits immediately with n = 1 > nmax and residual 2). -/
theorem alternate_tech_stop_condition_witness :
    (0 ≤ (((0 : Mat 2 2), 1, (2 : ℚ)) : Mat 2 2 × ℕ × ℚ).2.2 ∧
      (((0 : Mat 2 2), 1, (2 : ℚ)) : Mat 2 2 × ℕ × ℚ).2.2 ≤ 0) ∨
    0 < (((0 : Mat 2 2), 1, (2 : ℚ)) : Mat 2 2 × ℕ × ℚ).2.1 :=
  alternate_tech_stop_condition (!![10, 2; 0, 8] : Mat 2 2) (some !![1, 0; 0, 1])
    (0 : Mat 2 2) 0 0 ((0 : Mat 2 2), 1, (2 : ℚ))
    (by
      rw [show (alternate_tech_core (!![10, 2; 0, 8] : Mat 2 2) (some !![1, 0; 0, 1])
          (0 : Mat 2 2) 0 0) = (M_of (!![10, 2; 0, 8] : Mat 2 2)
            (some !![1, 0; 0, 1])).map (fun Mm =>
              altLoopF (-((0 : Mat 2 2) * Mm)) (0 : Mat 2 2) 0 0 1
                (1 : Mat 2 2) ((1 : Mat 2 2) * (0 : Mat 2 2)) 1
                (matSum (1 : Mat 2 2))) from rfl]
      rw [M_scenario, Option.map_some', Matrix.one_mul]
      rw [altLoopF]
      rw [if_neg (by
        rintro ⟨-, hn⟩
        omega)]
      have hres : matSum (1 : Mat 2 2) = 2 := by
        norm_num [matSum, Fin.sum_univ_two, Matrix.one_fin_two]
      rw [hres])

lemma altLoopF_tier_zero {nq nr : ℕ} (Gamma : Mat nq nr) (res_tol : ℚ) (nmax : ℕ)
    (fuel : ℕ) (tier_n : Mat nq nq) (theSum : Mat nq nr) (n : ℕ) (res : ℚ) :
    (altLoopF (0 : Mat nq nq) Gamma res_tol nmax fuel tier_n theSum n res).1 =
      theSum := by
  induction fuel generalizing tier_n theSum n res with
  | zero => rfl
  | succ f ih =>
    rw [altLoopF]
    split
    · rw [ih]
      rw [Matrix.mul_zero, Matrix.zero_mul, add_zero]
    · rfl

/-- C5 (amended): whenever Gamma·M = 0 (no feedback), the truncated series
sum theSum computed by the solver's loop equals Gamma after the single
n = 0 term, independently of nmax ≥ 0 and of res_tol; the value the solver
returns as A_gamma is (B_so + N_so)·theSum, not theSum itself. -/
theorem alternate_tech_series_reduces {com ind : ℕ} (V : Mat com ind)
    (E_bar : Option (Mat com ind)) (Gamma : Mat ind com) (nmax : ℕ) (res_tol : ℚ)
    (Mm : Mat com ind) (hM : M_of V E_bar = some Mm) (hzero : Gamma * Mm = 0) :
    (alternate_tech_core V E_bar Gamma nmax res_tol).map (fun r => r.1) =
      some Gamma := by
  unfold alternate_tech_core
  rw [hM]
  simp only [Option.map_some']
  refine Option.some_inj.mpr ?_
  show (altLoopF (-(Gamma * Mm)) Gamma res_tol nmax (nmax + 1) 1
    ((1 : Mat ind ind) * Gamma) 1 (matSum (1 : Mat ind ind))).1 = Gamma
  rw [hzero, neg_zero, altLoopF_tier_zero, Matrix.one_mul]

/-- C5 witness: the amended theorem at a concrete no-feedback input. -/
theorem alternate_tech_series_reduces_witness :
    (alternate_tech_core (!![10, 2; 0, 8] : Mat 2 2) (some !![1, 0; 0, 1])
      !![0, 1; 0, 1] 7 0).map (fun r => r.1) = some !![0, 1; 0, 1] :=
  alternate_tech_series_reduces (!![10, 2; 0, 8] : Mat 2 2) (some !![1, 0; 0, 1])
    !![0, 1; 0, 1] 7 0 !![0, 1/4; 0, 0] M_scenario
    (by
      ext i j
      fin_cases i <;> fin_cases j <;>
        simp [Matrix.mul_apply, Fin.sum_univ_two, Matrix.zero_apply])

/-- C5 counterexample: with V = [[10,2],[0,8]], E_bar the identity,
U = [[1,1],[2,3]] and Gamma = [[0,1],[0,1]] one has Gamma·M = 0, yet the
A_gamma returned by the solver is (B_so + N_so)·Gamma =
[[0,9/40],[0,23/40]], which differs from Gamma: the series sum reduces to
Gamma, but A_gamma is not Gamma. -/
theorem alternate_tech_A_gamma_not_Gamma :
    ((!![0, 1; 0, 1] : Mat 2 2) * !![0, 1/4; 0, 0] = 0) ∧
    M_of (!![10, 2; 0, 8] : Mat 2 2) (some !![1, 0; 0, 1]) = some !![0, 1/4; 0, 0] ∧
    ((alternate_tech (!![10, 2; 0, 8] : Mat 2 2) !![1, 1; 2, 3]
        (none : Option (Mat 1 2)) (some !![1, 0; 0, 1]) !![0, 1; 0, 1] 3 0).map
      (fun p => p.1)) = some !![0, 9/40; 0, 23/40] ∧
    (!![0, 9/40; 0, 23/40] : Mat 2 2) ≠ !![0, 1; 0, 1] := by
  have hzero : (!![0, 1; 0, 1] : Mat 2 2) * !![0, 1/4; 0, 0] = 0 := by
    ext i j
    fin_cases i <;> fin_cases j <;>
      simp [Matrix.mul_apply, Fin.sum_univ_two, Matrix.zero_apply]
  refine ⟨hzero, M_scenario, ?_, ?_⟩
  · have hcore : alternate_tech_core (!![10, 2; 0, 8] : Mat 2 2) (some !![1, 0; 0, 1])
        !![0, 1; 0, 1] 3 0 = some (!![0, 1; 0, 1], 2, 0) := by
      rw [show (alternate_tech_core (!![10, 2; 0, 8] : Mat 2 2) (some !![1, 0; 0, 1])
          !![0, 1; 0, 1] 3 0) = (M_of (!![10, 2; 0, 8] : Mat 2 2)
            (some !![1, 0; 0, 1])).map (fun Mm =>
              altLoopF (-((!![0, 1; 0, 1] : Mat 2 2) * Mm)) !![0, 1; 0, 1] 0 3 4
                (1 : Mat 2 2) ((1 : Mat 2 2) * !![0, 1; 0, 1]) 1
                (matSum (1 : Mat 2 2))) from rfl]
      rw [M_scenario, Option.map_some', hzero, neg_zero, Matrix.one_mul]
      have hressub : matSum (1 : Mat 2 2) = 2 := by
        norm_num [matSum, Fin.sum_univ_two, Matrix.one_fin_two]
      rw [hressub]
      norm_num [altLoopF, Matrix.one_mul, Matrix.mul_zero, Matrix.zero_mul,
        matSum, Fin.sum_univ_two, Matrix.zero_apply]
    rw [alternate_tech_A_of_core (!![10, 2; 0, 8] : Mat 2 2) !![1, 1; 2, 3]
      (none : Option (Mat 1 2)) !![1, 0; 0, 1] !![0, 1; 0, 1] 3 0 _ hcore]
    refine Option.some_inj.mpr ?_
    unfold alt_apply_req
    have hinvg : diaginv (g_V (!![10, 2; 0, 8] : Mat 2 2)) = !![1/10, 0; 0, 1/10] := by
      ext i j
      fin_cases i <;> fin_cases j <;>
        simp [diaginv, ddiag1, Matrix.diagonal, g_V, Fin.sum_univ_two] <;> norm_num
    have hso : ddiag1 (fun j => if (Finset.univ.filter
        (fun i => (!![10, 2; 0, 8] : Mat 2 2) i j ≠ 0)).card = 1 then (1 : ℚ) else 0) =
        !![1, 0; 0, 0] := by
      ext i j
      fin_cases i <;> fin_cases j <;> decide
    have hmo : ddiag1 (fun j => if (Finset.univ.filter
        (fun i => (!![10, 2; 0, 8] : Mat 2 2) i j ≠ 0)).card = 1 then (0 : ℚ) else 1) =
        !![0, 0; 0, 1] := by
      ext i j
      fin_cases i <;> fin_cases j <;> decide
    rw [hinvg, hso, hmo]
    ext i j
    fin_cases i <;> fin_cases j <;>
      simp [Matrix.mul_apply, Matrix.add_apply, diaginv, ddiag1, Matrix.diagonal,
        Fin.sum_univ_two, Matrix.vecHead, Matrix.vecTail, Function.comp] <;> norm_num
  · intro hEq
    have hcontr := congrFun (congrFun hEq 0) 1
    norm_num at hcontr

/-! Remaining allocation constructs. -/

/-- Method SUT.itc: Z = U·diaginv(g)·Vᵀ, F_con = F·diaginv(g)·Vᵀ, then
matrix_norm against V. -/
def itc {com ind ext : ℕ} (V U : Mat com ind) (F : Option (Mat ext ind))
    (keep_size : Bool) : ConstructOut com ext :=
  let g_diag_inv := diaginv (g_V V)
  let Z := U * g_diag_inv * V.transpose
  let F_con := F.map (fun (f : Mat ext ind) => f * g_diag_inv * V.transpose)
  let mn := matrix_norm Z V F_con keep_size
  (mn.1, mn.2.1, mn.2.2.1, mn.2.2.2, Z, F_con)

/-- Method SUT.lsc: Z = U·E_barᵀ, V_dd = E_bar·diag(g), F_con = F·E_barᵀ,
then matrix_norm against V_dd; with E_bar absent the attribute access
E_bar.T raises (none).  The return_unnormalized_flows flag only selects
which of the computed outputs are exposed and is not modelled. -/
def lsc {com ind ext : ℕ} (V U : Mat com ind) (F : Option (Mat ext ind))
    (E_bar : Option (Mat com ind)) (keep_size : Bool) :
    Option (ConstructOut com ext) :=
  E_bar.map (fun Eb =>
    let Z : Mat com com := U * Eb.transpose
    let V_dd : Mat com ind := Eb * ddiag1 (g_V V)
    let F_con : Option (Mat ext com) := F.map (fun (f : Mat ext ind) => f * Eb.transpose)
    let mn := matrix_norm Z V_dd F_con keep_size
    (mn.1, mn.2.1, mn.2.2.1, mn.2.2.2, Z, F_con))

/-- Method SUT.psc_agg: Z = (U - Xi·V_tild)·E_barᵀ, F_con = F·E_barᵀ,
normalized by V_bar; with Xi or E_bar absent the attribute access on None
raises (none). -/
def psc_agg {com ind ext : ℕ} (V U : Mat com ind) (F : Option (Mat ext ind))
    (E_bar : Option (Mat com ind)) (Xi : Option (Mat com com)) (keep_size : Bool) :
    Option (ConstructOut com ext) :=
  Xi.bind (fun X =>
    (V_tild_of V E_bar).bind (fun Vt =>
      E_bar.bind (fun Eb =>
        (V_bar_of V E_bar).map (fun Vb =>
          let Z : Mat com com := (U - X * Vt) * Eb.transpose
          let F_con : Option (Mat ext com) :=
            F.map (fun (f : Mat ext ind) => f * Eb.transpose)
          let mn := matrix_norm Z Vb F_con keep_size
          (mn.1, mn.2.1, mn.2.2.1, mn.2.2.2, Z, F_con)))))

/-- Helper SUT.__pa_coeff: PHI = inv(ddiag(Vᵀ·PSI))·(Vᵀ ⊙ PSIᵀ), with PSI a
single intensive-property column (the source's elementwise product
broadcasts it); np.linalg.inv raises when the diagonal denominator has a
zero entry (none). -/
def pa_coeff {com ind : ℕ} (V : Mat com ind) (PSI : Fin com → ℚ) :
    Option (Mat ind com) :=
  let d : Fin ind → ℚ := fun j => ∑ p, V p j * PSI p
  if h : ∀ j, d j ≠ 0 then
    some (fun j c => (d j)⁻¹ * (V c j * PSI c))
  else none

/-- Method SUT.pc_agg given a partition coefficient PHI: Z = U·PHI,
F_con = F·PHI, then matrix_norm against V. -/
def pc_agg_with {com ind ext : ℕ} (V U : Mat com ind) (F : Option (Mat ext ind))
    (PHI : Mat ind com) (keep_size : Bool) : ConstructOut com ext :=
  let Z := U * PHI
  let F_con := F.map (fun (f : Mat ext ind) => f * PHI)
  let mn := matrix_norm Z V F_con keep_size
  (mn.1, mn.2.1, mn.2.2.1, mn.2.2.2, Z, F_con)

/-- Method SUT.aac_agg: alternate-technology requirements A_gamma and
S_gamma via the fixed-point solver, then
Z = (U - A_gamma·V_tild)·E_barᵀ + A_gamma·ddiag(V_tild·e_ind), analogously
F_con from F and S_gamma, then matrix_norm against V.  A missing Gamma or
E_bar raises inside the solver or at E_bar.T (none). -/
def aac_agg {com ind ext : ℕ} (V U : Mat com ind) (F : Option (Mat ext ind))
    (E_bar : Option (Mat com ind)) (Gamma : Option (Mat ind com)) (nmax : ℕ)
    (res_tol : ℚ) (keep_size : Bool) : Option (ConstructOut com ext) :=
  Gamma.bind (fun G =>
    (V_tild_of V E_bar).bind (fun Vt =>
      (alternate_tech V U F E_bar G nmax res_tol).bind (fun ag =>
        E_bar.map (fun Eb =>
          let A_gamma := ag.1
          let Z : Mat com com := (U - A_gamma * Vt) * Eb.transpose +
            A_gamma * ddiag1 (fun i => ∑ j, Vt i j)
          let F_con : Option (Mat ext com) := match F, ag.2 with
            | some f, some Sg => some ((f - Sg * Vt) * Eb.transpose +
                Sg * ddiag1 (fun i => ∑ j, Vt i j))
            | _, _ => none
          let mn := matrix_norm Z V F_con keep_size
          (mn.1, mn.2.1, mn.2.2.1, mn.2.2.2, Z, F_con)))))

/-! The SUT object state and the constructs as state transformers. -/

/-- The fields of a SUT object read or written by the allocation
constructs. -/
structure SUTState (com ind ext : ℕ) where
  V : Mat com ind
  U : Mat com ind
  F : Option (Mat ext ind)
  E_bar : Option (Mat com ind)
  Xi : Option (Mat com com)
  Gamma : Option (Mat ind com)
  PSI : Option (Fin com → ℚ)
  PHI : Option (Mat ind com)

/-- SUT.itc as a state transformer: reads V, U, F; writes nothing. -/
def itc_st {com ind ext : ℕ} (s : SUTState com ind ext) (ks : Bool) :
    Option (ConstructOut com ext) × SUTState com ind ext :=
  (some (itc s.V s.U s.F ks), s)

/-- SUT.ctc as a state transformer: np.linalg.inv needs square V (raises on
a rectangular table); reads V, U, F; writes nothing. -/
def ctc_st {com ind ext : ℕ} (s : SUTState com ind ext) (ks : Bool) :
    Option (ConstructOut com ext) × SUTState com ind ext :=
  ((if h : com = ind then
    ctc (fun i j => s.V i (Fin.cast h j)) (fun i j => s.U i (Fin.cast h j))
      (s.F.map (fun f => fun r j => f r (Fin.cast h j))) ks
  else none), s)

/-- SUT.btc as a state transformer: reads V, U, F, E_bar; writes nothing. -/
def btc_st {com ind ext : ℕ} (s : SUTState com ind ext) (ks : Bool) :
    Option (ConstructOut com ext) × SUTState com ind ext :=
  (btc s.V s.U s.F s.E_bar ks, s)

/-- SUT.lsc as a state transformer: reads V, U, F, E_bar; writes nothing. -/
def lsc_st {com ind ext : ℕ} (s : SUTState com ind ext) (ks : Bool) :
    Option (ConstructOut com ext) × SUTState com ind ext :=
  (lsc s.V s.U s.F s.E_bar ks, s)

/-- SUT.psc_agg as a state transformer: reads V, U, F, E_bar, Xi; writes
nothing. -/
def psc_agg_st {com ind ext : ℕ} (s : SUTState com ind ext) (ks : Bool) :
    Option (ConstructOut com ext) × SUTState com ind ext :=
  (psc_agg s.V s.U s.F s.E_bar s.Xi ks, s)

/-- SUT.aac_agg as a state transformer: reads V, U, F, E_bar, Gamma; writes
nothing. -/
def aac_agg_st {com ind ext : ℕ} (s : SUTState com ind ext) (nmax : ℕ)
    (res_tol : ℚ) (ks : Bool) :
    Option (ConstructOut com ext) × SUTState com ind ext :=
  (aac_agg s.V s.U s.F s.E_bar s.Gamma nmax res_tol ks, s)

/-- SUT.pc_agg as a state transformer: when PHI is absent, __pa_coeff
derives it from PSI and stores it on the object (the only construct-side
write, and it touches PHI only); an absent PSI or a singular denominator
raises before anything is stored. -/
def pc_agg_st {com ind ext : ℕ} (s : SUTState com ind ext) (ks : Bool) :
    Option (ConstructOut com ext) × SUTState com ind ext :=
  match s.PHI with
  | some phi => (some (pc_agg_with s.V s.U s.F phi ks), s)
  | none =>
    match s.PSI with
    | none => (none, s)
    | some psi =>
      match pa_coeff s.V psi with
      | none => (none, s)
      | some phi =>
        (some (pc_agg_with s.V s.U s.F phi ks),
          ⟨s.V, s.U, s.F, s.E_bar, s.Xi, s.Gamma, s.PSI, some phi⟩)

/-- C6: every allocation-construct invocation (itc, ctc, btc, psc_agg,
pc_agg, lsc, aac_agg), on every SUT state and for every keep_size and
solver parameter, leaves the source tables V, U and F of the SUT object
unchanged: the constructs read them and return newly built result matrices
(pc_agg may store a derived PHI, which is not a source table). -/
theorem constructs_preserve_sources {com ind ext : ℕ} (s : SUTState com ind ext)
    (ks : Bool) (nmax : ℕ) (res_tol : ℚ) :
    ((itc_st s ks).2.V = s.V ∧ (itc_st s ks).2.U = s.U ∧ (itc_st s ks).2.F = s.F) ∧
    ((ctc_st s ks).2.V = s.V ∧ (ctc_st s ks).2.U = s.U ∧ (ctc_st s ks).2.F = s.F) ∧
    ((btc_st s ks).2.V = s.V ∧ (btc_st s ks).2.U = s.U ∧ (btc_st s ks).2.F = s.F) ∧
    ((psc_agg_st s ks).2.V = s.V ∧ (psc_agg_st s ks).2.U = s.U ∧
      (psc_agg_st s ks).2.F = s.F) ∧
    ((pc_agg_st s ks).2.V = s.V ∧ (pc_agg_st s ks).2.U = s.U ∧
      (pc_agg_st s ks).2.F = s.F) ∧
    ((lsc_st s ks).2.V = s.V ∧ (lsc_st s ks).2.U = s.U ∧ (lsc_st s ks).2.F = s.F) ∧
    ((aac_agg_st s nmax res_tol ks).2.V = s.V ∧
      (aac_agg_st s nmax res_tol ks).2.U = s.U ∧
      (aac_agg_st s nmax res_tol ks).2.F = s.F) := by
  refine ⟨⟨rfl, rfl, rfl⟩, ⟨rfl, rfl, rfl⟩, ⟨rfl, rfl, rfl⟩, ⟨rfl, rfl, rfl⟩, ?_,
    ⟨rfl, rfl, rfl⟩, ⟨rfl, rfl, rfl⟩⟩
  unfold pc_agg_st
  split
  · exact ⟨rfl, rfl, rfl⟩
  · split
    · exact ⟨rfl, rfl, rfl⟩
    · split
      · exact ⟨rfl, rfl, rfl⟩
      · exact ⟨rfl, rfl, rfl⟩

end PySUT
